import Mathlib

/-!
Verification of the spi-tools core against its specification.

Shallow embedding conventions:
- Python `datetime` timestamps are modelled as `Int` (datetimes are totally
  ordered; only comparisons matter to the verified code).
- Python lists and the iteration order of Python sets are modelled as `List`.
- Fallible Python code (code that can raise) is modelled with `Except String`,
  the message recording the Python exception class.
- External collaborators (the mwclient wire client, mwparserfromhell, the
  MediaWiki registry API, the stdlib heapq/ipaddress modules) are modelled at
  their documented boundary, as the spec directs.
-/

/-! ## Block log entries (src/wiki_interface/block_utils.py)

`BlockEvent` and `UnblockEvent` are two frozen dataclasses; we model them as
one sum type.  `BlockEvent` carries `target`, `timestamp`, `id`, optional
`expiry` and `is_reblock`; `UnblockEvent` carries `target`, `timestamp`, `id`.
-/

inductive BlockLogEntry where
  | block (target : String) (timestamp : Int) (id : Int)
      (expiry : Option Int) ( is_reblock : Bool)
  | unblock (target : String) (timestamp : Int) (id : Int)
deriving DecidableEq, Repr

/-- Timestamp field common to both event kinds. -/
def BlockLogEntry.ts : BlockLogEntry → Int
  | .block _ t _ _ _ => t
  | .unblock _ t _ => t

/-- Python `isinstance(event, BlockEvent)`: true for block and reblock
events (both are instances of the `BlockEvent` class), false for
`UnblockEvent`. -/
def BlockLogEntry.isBlockInstance : BlockLogEntry → Bool
  | .block _ _ _ _ _ => true
  | .unblock _ _ _ => false

/-- `BlockEvent.__post_init__`: raises `ValueError` when an expiry is given
and `expiry < timestamp`.  `None` (indefinite block) skips the check, and a
datetime is always truthy in Python, so the check runs exactly when an expiry
is present.  `BlockEvent` has no custom `__init__`, so the dataclass-generated
constructor does invoke this hook. -/
def mkBlockEvent (target : String) (timestamp : Int) (id : Int)
    (expiry : Option Int) ( is_reblock : Bool) : Except String BlockLogEntry :=
  match expiry with
  | some e =>
      if e < timestamp then .error "ValueError"
      else .ok (.block target timestamp id (some e) is_reblock)
  | none => .ok (.block target timestamp id none is_reblock)

/-! ## UserBlockHistory construction

`UserBlockHistory` is declared as a `@dataclass` but defines its own
`__init__`, which sorts the supplied events by timestamp.  Because the class
supplies `__init__` itself, `@dataclass` does not install its generated
constructor, and `__post_init__` (which holds the ordering/type validation)
is never invoked by anything: construction always succeeds.

Python `sorted(..., key=lambda e: e.timestamp)` is a stable ascending sort;
we model it as a stable insertion sort on the timestamp key. -/

/-- Insert an event into a list, after every element whose timestamp is
less than or equal to its own (stability of Python `sorted`). -/
def insertByTs (e : BlockLogEntry) : List BlockLogEntry → List BlockLogEntry
  | [] => [e]
  | x :: xs => if x.ts ≤ e.ts then x :: insertByTs e xs else e :: x :: xs

/-- Stable ascending sort by timestamp, modelling
`sorted(unordered_events, key=lambda e: e.timestamp)`. -/
def sortByTs (l : List BlockLogEntry) : List BlockLogEntry :=
  l.foldl (fun acc e => insertByTs e acc) []

structure UserBlockHistory where
  events : List BlockLogEntry
deriving DecidableEq, Repr

/-- The hand-written `UserBlockHistory.__init__`: sorts the events by
timestamp and stores them.  It performs no validation and cannot fail. -/
def UserBlockHistory.init (unordered_events : List BlockLogEntry) :
    UserBlockHistory :=
  ⟨sortByTs unordered_events⟩

/-- The body of `UserBlockHistory.__post_init__`: walks the stored events,
raising `ValueError` when an event timestamp is not strictly greater than the
previous one (`previous_timestamp` starts at `utc_min`, modelled as `none`,
strictly below every timestamp).  The `isinstance` check of the source cannot
fail in the typed embedding, where every entry is one of the two kinds.
This method is dead code in the source: the dataclass machinery only calls
`__post_init__` from the generated `__init__`, which is displaced by the
hand-written one. -/
def UserBlockHistory.postInitCheck : Option Int → List BlockLogEntry →
    Except String Unit
  | _, [] => .ok ()
  | none, e :: es => UserBlockHistory.postInitCheck (some e.ts) es
  | some prev, e :: es =>
      if e.ts ≤ prev then .error "ValueError"
      else UserBlockHistory.postInitCheck (some e.ts) es

/-! ## is_blocked_at -/

/-- Loop body of `UserBlockHistory.is_blocked_at`: starting from
`is_blocked = False`, scan the stored events in order; break at the first
event with `event.timestamp > timestamp`, otherwise remember
`isinstance(event, BlockEvent)`. -/
def blockedScan (t : Int) : Bool → List BlockLogEntry → Bool
  | acc, [] => acc
  | acc, e :: es => if t < e.ts then acc else blockedScan t e.isBlockInstance es

/-- `UserBlockHistory.is_blocked_at(timestamp)`. -/
def UserBlockHistory.is_blocked_at (h : UserBlockHistory) (t : Int) : Bool :=
  blockedScan t false h.events

/-- Kind-and-timestamp view of an entry: everything `is_blocked_at` can
observe about one event. -/
def eventShape (e : BlockLogEntry) : Bool × Int :=
  (e.isBlockInstance, e.ts)

/-! ## The multi-user merge (src/wiki_interface/wiki.py multi_user_blocks)

`multi_user_blocks` runs `list(heapq.merge(*blocks, reverse=True))` over the
per-user histories.  `heapq.merge` compares `[value, order, next]` lists: the
values are compared for equality first (dataclass `__eq__`: same class and
equal fields), then, if unequal, with `<`.  `BlockEvent.__lt__` compares
`self.timestamp < other.timestamp` and accepts either kind on the right;
`UnblockEvent` defines no ordering at all and neither class defines
`__gt__`, so any `<` with an `UnblockEvent` on the left raises `TypeError`.
-/

/-- Python `a < b` on block log entries: `BlockEvent.__lt__` compares
timestamps; an `UnblockEvent` on the left has no `__lt__` and no reflected
`__gt__` exists on either class, so Python raises `TypeError`. -/
def pyLt (a b : BlockLogEntry) : Except String Bool :=
  match a with
  | .block _ t _ _ _ => .ok (decide (t < b.ts))
  | .unblock _ _ _ => .error "TypeError"

/-- Comparison of two `[value, order, next]` heap entries, as performed by
list lexicographic comparison: equal values fall through to the integer
`order` tags (always distinct across iterables), unequal values are compared
with `pyLt`. -/
def entryLt (a : BlockLogEntry × Int) (b : BlockLogEntry × Int) :
    Except String Bool :=
  if a.1 = b.1 then .ok (decide (a.2 < b.2)) else pyLt a.1 b.1

/-- Steady state of `heapq.merge(reverse=True)` with two iterators: the top
entry `(x, ox)` (with pending tail `xs`) is yielded, the same iterator is
advanced, and `_heapreplace_max` compares the other head against the advanced
head (other head on the left of `<`).  When the top iterator is exhausted the
other iterator is drained without further comparisons. -/
def merge2Go (x : BlockLogEntry) (xs : List BlockLogEntry) (ox : Int)
    (y : BlockLogEntry) (ys : List BlockLogEntry) (oy : Int) :
    Except String (List BlockLogEntry) :=
  match xs with
  | [] => .ok (x :: y :: ys)
  | x2 :: xs2 => do
      let c ← entryLt (y, oy) (x2, ox)
      if c then
        (fun r => x :: r) <$> merge2Go x2 xs2 ox y ys oy
      else
        (fun r => x :: r) <$> merge2Go y ys oy x2 xs2 ox
termination_by xs.length + ys.length
decreasing_by
  all_goals simp
  all_goals omega

/-- `list(heapq.merge(A, B, reverse=True))` for two iterables, including the
single comparison `_heapify_max` performs on a two-entry heap (the second
head on the left of `<` against the first; `order` tags are `0` and `-1`). -/
def heapqMerge2 (A B : List BlockLogEntry) :
    Except String (List BlockLogEntry) :=
  match A, B with
  | [], B => .ok B
  | A, [] => .ok A
  | a :: as2, b :: bs => do
      let c ← entryLt (b, -1) (a, 0)
      if c then merge2Go a as2 0 b bs (-1) else merge2Go b bs (-1) a as2 0

/-! ## Theorems: C1 and C7 -/

/-- C1: the spec says constructing a `UserBlockHistory` whose sorted events
contain two entries sharing a timestamp fails with an `OrderingError`.  In
the source the validation lives in `__post_init__`, but `UserBlockHistory`
defines its own `__init__`, so `@dataclass` never installs the generated
constructor that would call it: construction succeeds on duplicate
timestamps.  At the concrete input below, the hand-written constructor
returns the two equal-timestamp events while the (dead) validation body
would have rejected them. -/
theorem userblockhistory_dup_timestamp_not_rejected :
    (UserBlockHistory.init
        [.block "u" 1 10 none false, .block "u" 1 11 none false]).events
      = [.block "u" 1 10 none false, .block "u" 1 11 none false]
    ∧ UserBlockHistory.postInitCheck none
        [.block "u" 1 10 none false, .block "u" 1 11 none false]
      = .error "ValueError"
    ∧ (BlockLogEntry.block "u" 1 10 none false).ts
      = (BlockLogEntry.block "u" 1 11 none false).ts := by
  refine ⟨rfl, rfl, rfl⟩

/-- C7: constructing a `BlockEvent` with a non-null expiry strictly earlier
than its timestamp raises `ValueError`; expiry equal to or later than the
timestamp succeeds, as does a null expiry (indefinite block). -/
theorem blockevent_expiry_validation (target : String) (timestamp id : Int)
    (e : Int) (rb : Bool) :
    (e < timestamp →
      mkBlockEvent target timestamp id (some e) rb = .error "ValueError")
    ∧ (timestamp ≤ e →
      mkBlockEvent target timestamp id (some e) rb
        = .ok (.block target timestamp id (some e) rb))
    ∧ mkBlockEvent target timestamp id none rb
        = .ok (.block target timestamp id none rb) := by
  refine ⟨fun h => ?_, fun h => ?_, rfl⟩
  · simp [mkBlockEvent, h]
  · simp [mkBlockEvent, not_lt.mpr h]

/-- Witness for C7 at expiry 2 before timestamp 5, expiry 5 equal to
timestamp 5, and a null expiry. -/
theorem blockevent_expiry_validation_witness :
    mkBlockEvent "u" 5 1 (some 2) false = .error "ValueError"
    ∧ mkBlockEvent "u" 5 1 (some 5) false
        = .ok (.block "u" 5 1 (some 5) false)
    ∧ mkBlockEvent "u" 5 1 none false = .ok (.block "u" 5 1 none false) :=
  ⟨(blockevent_expiry_validation "u" 5 1 2 false).1 (by decide),
   (blockevent_expiry_validation "u" 5 1 5 false).2.1 (by decide),
   (blockevent_expiry_validation "u" 5 1 0 false).2.2⟩

/-! ## Category graphs (src/cat_checker/views.py)

`CategoryGraph` holds a `name` and a set `parents` of `CategoryGraph`s;
Python sets are modelled as lists (category names come from a set and are
pairwise distinct, so list order is the only artifact).  `__eq__` compares
`self.name == other.name and self.parents == other.parents`; Python set
equality is extensional (mutual inclusion under the elements' `__eq__`), and
`__hash__` is `hash(self.name)`. -/

inductive CategoryGraph where
  | mk (name : String) (parents : List CategoryGraph)
deriving Repr

def CategoryGraph.name : CategoryGraph → String
  | .mk n _ => n

def CategoryGraph.parents : CategoryGraph → List CategoryGraph
  | .mk _ p => p

mutual

/-- Python `==` on `CategoryGraph`: names equal and parent sets equal
(set equality is mutual inclusion under recursive `==`). -/
def catEq : CategoryGraph → CategoryGraph → Bool
  | .mk n1 p1, .mk n2 p2 => n1 == n2 && inclEq p1 p2 && inclRevEq p1 p2
termination_by a _ => (sizeOf a, 0)
decreasing_by
  all_goals simp
  all_goals omega

/-- Every element of the first list equals (under `catEq`) some element of
the second list. -/
def inclEq : List CategoryGraph → List CategoryGraph → Bool
  | [], _ => true
  | x :: xs, ys => memEq x ys && inclEq xs ys
termination_by xs _ => (sizeOf xs, 0)
decreasing_by
  all_goals simp
  all_goals omega

/-- The graph equals some element of the list. -/
def memEq : CategoryGraph → List CategoryGraph → Bool
  | _, [] => false
  | x, y :: ys => catEq x y || memEq x ys
termination_by x ys => (sizeOf x, 1 + sizeOf ys)
decreasing_by
  all_goals simp
  all_goals omega

/-- Every element of the second list equals some element of the first list;
recursion is driven by the first list so that `catEq` is always applied to a
structurally smaller left graph. -/
def inclRevEq (p1 : List CategoryGraph) : List CategoryGraph → Bool
  | [] => true
  | y :: ys => someEq p1 y && inclRevEq p1 ys
termination_by ys => (sizeOf p1, 2 + sizeOf ys)
decreasing_by
  all_goals simp
  all_goals omega

/-- Some element of the list equals the graph. -/
def someEq : List CategoryGraph → CategoryGraph → Bool
  | [], _ => false
  | x :: xs, y => catEq x y || someEq xs y
termination_by xs y => (sizeOf xs, 1 + sizeOf y)
decreasing_by
  all_goals simp
  all_goals omega

end

/-- Python `hash` on `CategoryGraph`: `hash(self.name)`, for an arbitrary
string hash `h`. -/
def catHash (h : String → Int) (g : CategoryGraph) : Int :=
  h g.name

/-- Recursive layer of `_get_categories`, re-indexed by the number of
remaining recursion levels: at level `0` (reached when `depth <= 1` in the
source) every category of the title becomes a node with an empty parent set;
at level `k+1` each node additionally carries the categories of its own name
built one level lower.  `cats` is the wiki lookup `_get_category_names`. -/
def getCatsLevels (cats : String → List String) : Nat → String → List CategoryGraph
  | 0, title => (cats title).map fun n => CategoryGraph.mk n []
  | k + 1, title => (cats title).map fun n => CategoryGraph.mk n (getCatsLevels cats k n)

/-- `_get_categories(page_title, depth)`: builds one `CategoryGraph` per
category name of the page and, when `depth > 1`, recursively attaches
`_get_categories(name, depth - 1)` as parents.  The number of recursion
levels below the first is `(depth - 1).toNat`. -/
def _get_categories (cats : String → List String) (page_title : String)
    (depth : Int) : List CategoryGraph :=
  getCatsLevels cats (depth - 1).toNat page_title

/-- Concrete wiki category data used in the counterexamples: page `Page`
belongs to the single category `C`; `C` belongs to `D`. -/
def catsPageC : String → List String :=
  fun t => if t = "Page" then ["C"] else if t = "C" then ["D"] else []

/-! ## Theorems: C2, C3, C9 -/

/-- C2 counterexample: two `CategoryGraph`s with equal `name` but different
`parents` are not equal under the source `__eq__`, which also compares the
parent sets; the claim that equal names imply equal nodes is false. -/
theorem categorygraph_name_eq_not_sufficient :
    CategoryGraph.name (.mk "X" []) = CategoryGraph.name (.mk "X" [.mk "Y" []])
    ∧ catEq (.mk "X" []) (.mk "X" [.mk "Y" []]) = false := by
  constructor
  · rfl
  · simp [catEq, inclEq, inclRevEq, someEq]

/-- C2 amended: equal names do guarantee equal hashes (the hash is computed
from the name alone), but node equality requires equal names and
extensionally equal parent sets; name equality alone does not decide
equality. -/
theorem categorygraph_eq_and_hash (h : String → Int) :
    (∀ a b : CategoryGraph, a.name = b.name → catHash h a = catHash h b)
    ∧ (∀ n1 p1 n2 p2, catEq (.mk n1 p1) (.mk n2 p2)
        = ((n1 == n2) && inclEq p1 p2 && inclRevEq p1 p2)) := by
  constructor
  · intro a b hn
    simp [catHash, hn]
  · intro n1 p1 n2 p2
    simp [catEq]

/-- Witness for C2 amended: same-name nodes with different parents hash
identically under the length hash, and the equality unfolding holds at the
same pair. -/
theorem categorygraph_eq_and_hash_witness :
    catHash (fun s => (s.length : Int)) (.mk "X" [])
      = catHash (fun s => (s.length : Int)) (.mk "X" [.mk "Y" []])
    ∧ catEq (.mk "X" []) (.mk "X" [.mk "Y" []])
      = (("X" == "X") && inclEq [] [.mk "Y" []] && inclRevEq [] [.mk "Y" []]) :=
  ⟨(categorygraph_eq_and_hash (fun s => (s.length : Int))).1 _ _ rfl,
   (categorygraph_eq_and_hash (fun s => (s.length : Int))).2 "X" [] "X" [.mk "Y" []]⟩

/-- C3 counterexample: with `depth = 0` the source still returns one node
per category of the page (only the recursion into parents is skipped), so on
a page with one category the result is not the empty set. -/
theorem get_categories_depth_zero_nonempty :
    _get_categories catsPageC "Page" 0 ≠ [] := by
  have h : _get_categories catsPageC "Page" 0 = [CategoryGraph.mk "C" []] := rfl
  rw [h]
  exact List.cons_ne_nil _ _

/-- C3 amended: for every `depth ≤ 1` (in particular every `depth ≤ 0`),
`_get_categories` returns one node per category name of the page, each with
an empty parent set; the result is empty only when the page has no
categories. -/
theorem get_categories_depth_le_one (cats : String → List String)
    (page_title : String) (depth : Int) (h : depth ≤ 1) :
    _get_categories cats page_title depth
      = (cats page_title).map fun n => CategoryGraph.mk n [] := by
  have h0 : (depth - 1).toNat = 0 := by omega
  rw [_get_categories, h0, getCatsLevels]

/-- Witness for C3 amended at `depth = 0` on the concrete one-category
page. -/
theorem get_categories_depth_le_one_witness :
    (0 : Int) ≤ 1
    ∧ _get_categories catsPageC "Page" 0
        = (catsPageC "Page").map fun n => CategoryGraph.mk n [] :=
  ⟨by decide, get_categories_depth_le_one catsPageC "Page" 0 (by decide)⟩

/-- C9: `_get_categories` is a total function satisfying its defining
recursion for every category map `cats`, including maps whose category
relation is cyclic: each level recurses with `depth - 1` and recursion stops
as soon as `depth ≤ 1`, so termination depends on the depth bound alone. -/
theorem get_categories_recursion (cats : String → List String)
    (page_title : String) (depth : Int) :
    _get_categories cats page_title depth
      = (cats page_title).map fun n =>
          if depth > 1 then CategoryGraph.mk n (_get_categories cats n (depth - 1))
          else CategoryGraph.mk n [] := by
  by_cases h : depth > 1
  · have h1 : (depth - 1).toNat = (depth - 1 - 1).toNat + 1 := by omega
    simp only [_get_categories, h1, getCatsLevels, if_pos h]
  · have h0 : (depth - 1).toNat = 0 := by omega
    simp only [_get_categories, h0, getCatsLevels, if_neg h]

/-! ## Theorem: C4 -/

/-- C4: the multi-user merge does not return a merged sequence for every
list of reverse-sorted per-user histories.  With the histories
`[Block at 5]` and `[Unblock at 3]` (each trivially reverse-sorted), the
first comparison `heapq.merge(reverse=True)` performs during heapification
puts the `UnblockEvent` on the left of `<`; `UnblockEvent` defines no
ordering methods and no reflected `__gt__` exists, so the merge raises
`TypeError` instead of returning the combined timeline claimed by the
spec. -/
theorem multi_user_blocks_unblock_typeerror :
    heapqMerge2 [.block "A" 5 1 none false] [.unblock "B" 3 2]
      = .error "TypeError"
    ∧ pyLt (.unblock "B" 3 2) (.block "A" 5 1 none false)
      = .error "TypeError" := by
  exact ⟨rfl, rfl⟩

/-! ## Ordering lemmas for the scan in is_blocked_at -/

/-- Membership in an insertion: the inserted element or an original one. -/
theorem mem_insertByTs (e x : BlockLogEntry) (l : List BlockLogEntry) :
    x ∈ insertByTs e l → x = e ∨ x ∈ l := by
  induction l with
  | nil => intro h; simpa [insertByTs] using h
  | cons y ys ih =>
      intro h
      by_cases hc : y.ts ≤ e.ts
      · simp only [insertByTs, if_pos hc, List.mem_cons] at h
        rcases h with h | h
        · exact Or.inr (by simp [h])
        · rcases ih h with h | h
          · exact Or.inl h
          · exact Or.inr (List.mem_cons_of_mem _ h)
      · simp only [insertByTs, if_neg hc, List.mem_cons] at h
        rcases h with h | h
        · exact Or.inl h
        · exact Or.inr (by simpa using h)

/-- Insertion preserves sortedness by timestamp. -/
theorem pairwise_insertByTs (e : BlockLogEntry) (l : List BlockLogEntry)
    (hl : l.Pairwise (fun a b => a.ts ≤ b.ts)) :
    (insertByTs e l).Pairwise (fun a b => a.ts ≤ b.ts) := by
  induction l with
  | nil => simp [insertByTs]
  | cons y ys ih =>
      rcases List.pairwise_cons.mp hl with ⟨hy, hys⟩
      by_cases hc : y.ts ≤ e.ts
      · rw [insertByTs, if_pos hc]
        refine List.pairwise_cons.mpr ⟨?_, ih hys⟩
        intro x hx
        rcases mem_insertByTs e x ys hx with h | h
        · exact h ▸ hc
        · exact hy x h
      · rw [insertByTs, if_neg hc]
        refine List.pairwise_cons.mpr ⟨?_, hl⟩
        intro x hx
        rcases List.mem_cons.mp hx with h | h
        · exact h ▸ le_of_not_le hc
        · exact le_trans (le_of_not_le hc) (hy x h)

/-- The fold underlying `sortByTs` keeps the accumulator sorted. -/
theorem pairwise_sort_fold (l acc : List BlockLogEntry)
    (hacc : acc.Pairwise (fun a b => a.ts ≤ b.ts)) :
    (l.foldl (fun acc e => insertByTs e acc) acc).Pairwise
      (fun a b => a.ts ≤ b.ts) := by
  induction l generalizing acc with
  | nil => simpa using hacc
  | cons e es ih => exact ih _ (pairwise_insertByTs e acc hacc)

/-- The events stored by `UserBlockHistory.init` are sorted by timestamp. -/
theorem pairwise_sortByTs (l : List BlockLogEntry) :
    (sortByTs l).Pairwise (fun a b => a.ts ≤ b.ts) :=
  pairwise_sort_fold l [] (by simp)

/-- On a timestamp-sorted list, the break-at-first-later-event scan computes
the kind of the last entry at or before the query time (or keeps the
accumulator when there is no such entry). -/
theorem blockedScan_eq_filter_last (t : Int) (l : List BlockLogEntry)
    (hl : l.Pairwise (fun a b => a.ts ≤ b.ts)) (acc : Bool) :
    blockedScan t acc l
      = (((l.filter fun e => e.ts ≤ t).getLast?.map
            BlockLogEntry.isBlockInstance).getD acc) := by
  induction l generalizing acc with
  | nil => simp [blockedScan]
  | cons e es ih =>
      rcases List.pairwise_cons.mp hl with ⟨he, hes⟩
      by_cases hc : t < e.ts
      · have hfe : (e :: es).filter (fun e => e.ts ≤ t) = [] := by
          rw [List.filter_cons_of_neg (by simp; omega)]
          rw [List.filter_eq_nil_iff]
          intro x hx
          have := he x hx
          simp
          omega
        rw [blockedScan, if_pos hc, hfe]
        simp
      · have hce : e.ts ≤ t := by omega
        rw [blockedScan, if_neg hc, ih hes]
        rw [List.filter_cons_of_pos (by simpa using hce)]
        rcases hfes : es.filter (fun e => e.ts ≤ t) with _ | ⟨f, fs⟩
        · rw [hfes]
          rfl
        · rw [hfes, List.getLast?_cons_cons]
          obtain ⟨z, hz⟩ := Option.isSome_iff_exists.mp
            (List.getLast?_isSome.mpr (List.cons_ne_nil f fs))
          rw [hz]
          rfl

/-! ## Theorem: C5 -/

/-- C5: on a constructed history, entries with timestamp at or before the
query are scanned in ascending order and the kind of the last such entry
decides the result (no such entry means not blocked); in particular on the
history `[Block at t1, Unblock at t3]` with `t1 < t3` the user is blocked at
`t1` and strictly between `t1` and `t3`, and not blocked at `t3` or before
`t1`. -/
theorem is_blocked_at_scan_spec :
    (∀ (events : List BlockLogEntry) (t : Int),
      (UserBlockHistory.init events).is_blocked_at t
        = ((((UserBlockHistory.init events).events.filter
              fun e => e.ts ≤ t).getLast?.map
                BlockLogEntry.isBlockInstance).getD false))
    ∧ (∀ (target : String) (t1 t3 id1 id3 : Int) (ex : Option Int) (rb : Bool),
        t1 < t3 →
        ((UserBlockHistory.init
            [.block target t1 id1 ex rb, .unblock target t3 id3]).is_blocked_at t1
          = true)
        ∧ (∀ t2, t1 < t2 → t2 < t3 →
            (UserBlockHistory.init
              [.block target t1 id1 ex rb, .unblock target t3 id3]).is_blocked_at t2
            = true)
        ∧ ((UserBlockHistory.init
            [.block target t1 id1 ex rb, .unblock target t3 id3]).is_blocked_at t3
          = false)
        ∧ (∀ t0, t0 < t1 →
            (UserBlockHistory.init
              [.block target t1 id1 ex rb, .unblock target t3 id3]).is_blocked_at t0
            = false)) := by
  constructor
  · intro events t
    exact blockedScan_eq_filter_last t (sortByTs events) (pairwise_sortByTs events) false
  · intro target t1 t3 id1 id3 ex rb h13
    have hinit : (UserBlockHistory.init
        [.block target t1 id1 ex rb, .unblock target t3 id3]).events
        = [.block target t1 id1 ex rb, .unblock target t3 id3] := by
      simp only [UserBlockHistory.init, sortByTs, List.foldl, insertByTs]
      rw [if_pos (show (BlockLogEntry.block target t1 id1 ex rb).ts
            ≤ (BlockLogEntry.unblock target t3 id3).ts from le_of_lt h13)]
    refine ⟨?_, ?_, ?_, ?_⟩
    · rw [UserBlockHistory.is_blocked_at, hinit, blockedScan,
        if_neg (by simp [BlockLogEntry.ts]), blockedScan,
        if_pos (by simp [BlockLogEntry.ts]; omega)]
      rfl
    · intro t2 h1 h2
      rw [UserBlockHistory.is_blocked_at, hinit, blockedScan,
        if_neg (by simp [BlockLogEntry.ts]; omega), blockedScan,
        if_pos (by simp [BlockLogEntry.ts]; omega)]
      rfl
    · rw [UserBlockHistory.is_blocked_at, hinit, blockedScan,
        if_neg (by simp [BlockLogEntry.ts]; omega), blockedScan,
        if_neg (by simp [BlockLogEntry.ts])]
      rfl
    · intro t0 h0
      rw [UserBlockHistory.is_blocked_at, hinit, blockedScan,
        if_pos (by simp [BlockLogEntry.ts]; omega)]

/-- Witness for C5 on the history `[Block at 1, Unblock at 5]`: blocked at
1 and 3, not blocked at 5 and 0. -/
theorem is_blocked_at_scan_spec_witness :
    (UserBlockHistory.init
        [.block "u" 1 10 none false, .unblock "u" 5 11]).is_blocked_at 1 = true
    ∧ (UserBlockHistory.init
        [.block "u" 1 10 none false, .unblock "u" 5 11]).is_blocked_at 3 = true
    ∧ (UserBlockHistory.init
        [.block "u" 1 10 none false, .unblock "u" 5 11]).is_blocked_at 5 = false
    ∧ (UserBlockHistory.init
        [.block "u" 1 10 none false, .unblock "u" 5 11]).is_blocked_at 0 = false :=
  ⟨(is_blocked_at_scan_spec.2 "u" 1 5 10 11 none false (by decide)).1,
   (is_blocked_at_scan_spec.2 "u" 1 5 10 11 none false (by decide)).2.1 3
      (by decide) (by decide),
   (is_blocked_at_scan_spec.2 "u" 1 5 10 11 none false (by decide)).2.2.1,
   (is_blocked_at_scan_spec.2 "u" 1 5 10 11 none false (by decide)).2.2.2 0
      (by decide)⟩

/-! ## Shape lemmas and theorem: C10 -/

/-- The scan of `is_blocked_at` observes only event shapes. -/
theorem blockedScan_shape (l1 l2 : List BlockLogEntry)
    (h : l1.map eventShape = l2.map eventShape) (t : Int) (acc : Bool) :
    blockedScan t acc l1 = blockedScan t acc l2 := by
  induction l1 generalizing l2 acc with
  | nil =>
      have : l2 = [] := by
        cases l2 with
        | nil => rfl
        | cons b bs => simp at h
      rw [this]
  | cons a as ih =>
      cases l2 with
      | nil => simp at h
      | cons b bs =>
          simp only [List.map_cons, List.cons.injEq] at h
          have hts : a.ts = b.ts := congrArg Prod.snd h.1
          have hkind : a.isBlockInstance = b.isBlockInstance :=
            congrArg Prod.fst h.1
          rw [blockedScan, blockedScan, hts, hkind]
          by_cases hc : t < b.ts
          · rw [if_pos hc, if_pos hc]
          · rw [if_neg hc, if_neg hc]
            exact ih bs h.2 _

/-- Insertion by timestamp observes only event shapes. -/
theorem insertByTs_shape (e1 e2 : BlockLogEntry)
    (he : eventShape e1 = eventShape e2) (l1 l2 : List BlockLogEntry)
    (h : l1.map eventShape = l2.map eventShape) :
    (insertByTs e1 l1).map eventShape = (insertByTs e2 l2).map eventShape := by
  have hets : e1.ts = e2.ts := congrArg Prod.snd he
  induction l1 generalizing l2 with
  | nil =>
      have : l2 = [] := by
        cases l2 with
        | nil => rfl
        | cons b bs => simp at h
      rw [this]
      simpa [insertByTs] using he
  | cons a as ih =>
      cases l2 with
      | nil => simp at h
      | cons b bs =>
          simp only [List.map_cons, List.cons.injEq] at h
          have hts : a.ts = b.ts := congrArg Prod.snd h.1
          rw [insertByTs, insertByTs]
          by_cases hc : a.ts ≤ e1.ts
          · rw [if_pos hc, if_pos (by omega)]
            simpa [h.1] using ih bs h.2
          · rw [if_neg hc, if_neg (by omega)]
            simp [he, h.1, h.2]

/-- The sorting fold observes only event shapes. -/
theorem sort_fold_shape (l1 l2 acc1 acc2 : List BlockLogEntry)
    (h : l1.map eventShape = l2.map eventShape)
    (hacc : acc1.map eventShape = acc2.map eventShape) :
    (l1.foldl (fun acc e => insertByTs e acc) acc1).map eventShape
      = (l2.foldl (fun acc e => insertByTs e acc) acc2).map eventShape := by
  induction l1 generalizing l2 acc1 acc2 with
  | nil =>
      have : l2 = [] := by
        cases l2 with
        | nil => rfl
        | cons b bs => simp at h
      rw [this]
      simpa using hacc
  | cons a as ih =>
      cases l2 with
      | nil => simp at h
      | cons b bs =>
          simp only [List.map_cons, List.cons.injEq] at h
          exact ih bs _ _ h.2 (insertByTs_shape a b h.1 acc1 acc2 hacc)

/-- C10: `is_blocked_at` depends only on the kinds and timestamps of the
stored entries and never on a block expiry: histories built from entry lists
with identical kind-and-timestamp shapes answer every query identically, and
a history holding a single time-limited block reports blocked at every time
from the block on, however small its expiry. -/
theorem is_blocked_at_ignores_expiry :
    (∀ l1 l2 : List BlockLogEntry,
      l1.map eventShape = l2.map eventShape →
      ∀ t : Int, (UserBlockHistory.init l1).is_blocked_at t
        = (UserBlockHistory.init l2).is_blocked_at t)
    ∧ (∀ (target : String) (t1 id ex : Int) (rb : Bool) (t : Int), t1 ≤ t →
        (UserBlockHistory.init
          [.block target t1 id (some ex) rb]).is_blocked_at t = true) := by
  constructor
  · intro l1 l2 h t
    exact blockedScan_shape _ _ (sort_fold_shape l1 l2 [] [] h rfl) t false
  · intro target t1 id ex rb t ht
    rw [UserBlockHistory.is_blocked_at]
    show blockedScan t false [.block target t1 id (some ex) rb] = true
    rw [blockedScan, if_neg (by simp [BlockLogEntry.ts]; omega)]
    rfl

/-- Witness for C10: a block at 1 expiring at 2 and an indefinite block at 1
have the same shape, so at time 100 both histories answer identically, and
the expired block is still reported blocked at 100. -/
theorem is_blocked_at_ignores_expiry_witness :
    (UserBlockHistory.init [.block "u" 1 7 (some 2) false]).is_blocked_at 100
      = (UserBlockHistory.init [.block "u" 1 7 none false]).is_blocked_at 100
    ∧ (UserBlockHistory.init [.block "u" 1 7 (some 2) false]).is_blocked_at 100
      = true :=
  ⟨is_blocked_at_ignores_expiry.1 [.block "u" 1 7 (some 2) false]
      [.block "u" 1 7 none false] (by decide) 100,
   is_blocked_at_ignores_expiry.2 "u" 1 7 2 false 100 (by decide)⟩

/-! ## SPI case parsing (src/spi/spi_utils.py)

mwparserfromhell is an external collaborator; we model the parsed wikicode
of a case document as the list of template invocations it contains.  A
template has a name and its parameters as name-value pairs; the first
positional argument of a template carries the parameter name `1`, so
`template.get(quote 1).value` is the lookup of parameter `1`.  The name
matcher of `Wikicode.matches` is taken as an abstract predicate. -/

structure Template where
  name : String
  params : List (String × String)
deriving DecidableEq, Repr

/-- `template.get(p).value`: the value of the parameter named `p`, or a
`ValueError` when no such parameter exists, modelled as `none`. -/
def Template.get (t : Template) (p : String) : Option String :=
  (t.params.find? fun q => q.1 == p).map fun q => q.2

/-- `SPICase.master_name`: filter the templates whose name matches
`SPIarchive notice` (the matcher is the abstract `matchesNotice`); when
exactly one matches return its first positional argument, otherwise raise
`ArchiveError`.  A matching template without a parameter `1` raises
`ValueError` from the `get` call instead. -/
def master_name (matchesNotice : String → Bool) (doc : List Template) :
    Except String String :=
  match doc.filter fun t => matchesNotice t.name with
  | [t] =>
      match t.get "1" with
      | some v => .ok v
      | none => .error "ValueError"
  | _ => .error "ArchiveError"

/-! ## Theorem: C6 -/

/-- C6: `master_name` fails with `ArchiveError` whenever the number of
recognized archive-notice templates is zero or at least two, and with
exactly one recognized template it returns that template's first positional
argument verbatim. -/
theorem master_name_spec (matchesNotice : String → Bool)
    (doc : List Template) :
    ((doc.filter fun t => matchesNotice t.name).length ≠ 1 →
      master_name matchesNotice doc = .error "ArchiveError")
    ∧ (∀ t v, (doc.filter fun t => matchesNotice t.name) = [t] →
        t.get "1" = some v →
        master_name matchesNotice doc = .ok v) := by
  constructor
  · intro hlen
    rw [master_name]
    rcases hf : doc.filter fun t => matchesNotice t.name with _ | ⟨t, _ | ⟨u, us⟩⟩
    · rw [hf]
    · simp [hf] at hlen
    · rw [hf]
  · intro t v hf hget
    rw [master_name, hf]
    show (match t.get "1" with
      | some v => Except.ok v
      | none => Except.error "ValueError") = Except.ok v
    rw [hget]

/-- Witness for C6: a document holding exactly one archive notice with first
argument `ExampleUser` yields `ExampleUser`; the empty document and a
document with two notices fail with `ArchiveError`. -/
theorem master_name_spec_witness :
    master_name (fun n => n == "SPIarchive notice")
        [⟨"SPIarchive notice", [("1", "ExampleUser")]⟩]
      = .ok "ExampleUser"
    ∧ master_name (fun n => n == "SPIarchive notice") [] = .error "ArchiveError"
    ∧ master_name (fun n => n == "SPIarchive notice")
        [⟨"SPIarchive notice", [("1", "A")]⟩, ⟨"SPIarchive notice", [("1", "B")]⟩]
      = .error "ArchiveError" :=
  ⟨(master_name_spec (fun n => n == "SPIarchive notice")
        [⟨"SPIarchive notice", [("1", "ExampleUser")]⟩]).2
      ⟨"SPIarchive notice", [("1", "ExampleUser")]⟩ "ExampleUser"
      (by decide) (by decide),
   (master_name_spec (fun n => n == "SPIarchive notice") []).1 (by decide),
   (master_name_spec (fun n => n == "SPIarchive notice")
        [⟨"SPIarchive notice", [("1", "A")]⟩, ⟨"SPIarchive notice", [("1", "B")]⟩]).1
      (by decide)⟩

/-! ## Username validation (src/wiki_interface/wiki.py)

`normalize_username` maps every whitespace character to an underscore, every
run of underscores to a single space, strips the result and uppercases its
first character.  Python regex whitespace is modelled on its ASCII portion
(space, tab, newline, carriage return, vertical tab, form feed); the claims
involve only spaces and underscores.  `str.upper` on one character is
modelled by `Char.toUpper`. -/

/-- ASCII portion of the Python whitespace class. -/
def isPySpace (c : Char) : Bool :=
  c == ' ' || c == '\t' || c == '\n' || c == '\r' || c == '\x0b' || c == '\x0c'

/-- First substitution of `normalize_username`: every whitespace character
becomes an underscore. -/
def toUnderscores (l : List Char) : List Char :=
  l.map fun c => if isPySpace c then '_' else c

/-- Second substitution: each maximal run of underscores becomes a single
space; the flag records whether the previous character belonged to a run. -/
def collapseRuns : Bool → List Char → List Char
  | _, [] => []
  | inRun, c :: rest =>
      if c = '_' then
        if inRun then collapseRuns true rest
        else ' ' :: collapseRuns true rest
      else c :: collapseRuns false rest

/-- Python `str.strip()` on the character list. -/
def pyStripChars (l : List Char) : List Char :=
  ((l.dropWhile isPySpace).reverse.dropWhile isPySpace).reverse

/-- Python `str.strip()`. -/
def pyStrip (s : String) : String :=
  (pyStripChars s.toList).asString

/-- `Wiki.normalize_username`. -/
def normalize_username (name : String) : String :=
  let underscores := toUnderscores name.toList
  let single_space := collapseRuns false underscores
  let trimmed := pyStripChars single_space
  match trimmed with
  | [] => ""
  | c :: rest => (c.toUpper :: rest).asString

/-- `more_itertools.chunked(l, n)` (external), recursion bounded by the list
length: successive slices of at most `n` elements. -/
def chunkedGo (n : Nat) : Nat → List String → List (List String)
  | _, [] => []
  | 0, l => [l]
  | fuel + 1, x :: xs => (x :: xs).take n :: chunkedGo n fuel ((x :: xs).drop n)

/-- `more_itertools.chunked(l, n)`. -/
def chunked (n : Nat) (l : List String) : List (List String) :=
  chunkedGo n l.length l

/-- Outcome of the registry (MediaWiki API Users) for one queried name,
modelled at the external boundary: a syntactically invalid name is echoed
with the `invalid` flag, otherwise the registry answers for the normalized
form, flagging `missing` when that form is not registered. -/
inductive UserQueryResult where
  | invalid
  | missing
  | known
deriving DecidableEq, Repr

/-- One output record of the registry batch call: the reported name (the
input name when invalid, its normalized form otherwise) and its flag. -/
def apiUsersRecord (synInvalid registered : String → Bool) (n : String) :
    String × UserQueryResult :=
  if synInvalid n then (n, .invalid)
  else if registered (normalize_username n) then (normalize_username n, .known)
  else (normalize_username n, .missing)

/-- `Wiki.validate_usernames`: raise `TypeError` for non-string inputs
(impossible in the typed embedding), `ValueError` when a name contains a
pipe; drop names whose stripped form is an IP address (`_is_ip_address` of
the stripped name, via the abstract `isIP`); query the registry for the rest
in chunks of `MAX_USUSER = 50`, collecting the names flagged invalid and the
normalized names flagged missing; return every queried name whose normalized
form was flagged missing or that itself was flagged invalid.  Python sets
are modelled as lists with membership via `contains`. -/
def validate_usernames (isIP synInvalid registered : String → Bool)
    (input_names : List String) : Except String (List String) :=
  if input_names.any fun n => n.toList.contains '|' then .error "ValueError"
  else
    let user_names := input_names.filter fun n => !isIP (pyStrip n)
    let records := ((chunked 50 user_names).map fun chunk =>
      chunk.map (apiUsersRecord synInvalid registered)).flatten
    let invalid_names := (records.filter fun r =>
      r.2 == UserQueryResult.invalid).map fun r => r.1
    let normalized_missing_names := (records.filter fun r =>
      r.2 == UserQueryResult.missing).map fun r => r.1
    .ok (user_names.filter fun n =>
      normalized_missing_names.contains (normalize_username n)
      || invalid_names.contains n)

/-! ## Lemmas for C8 -/

/-- Chunking a list and joining the chunks gives back the list. -/
theorem chunkedGo_join (n : Nat) (fuel : Nat) (l : List String) :
    (chunkedGo n fuel l).flatten = l := by
  induction fuel generalizing l with
  | zero =>
      cases l with
      | nil => rfl
      | cons x xs => simp [chunkedGo]
  | succ f ih =>
      cases l with
      | nil => rfl
      | cons x xs =>
          rw [chunkedGo]
          simp only [List.flatten_cons, ih]
          exact List.take_append_drop n (x :: xs)

/-- Joining a map over chunks is a map over the original list. -/
theorem chunked_map_join (f : String → String × UserQueryResult) (n : Nat)
    (l : List String) :
    ((chunked n l).map fun chunk => chunk.map f).flatten = l.map f := by
  have h : ∀ L : List (List String),
      (L.map fun chunk => chunk.map f).flatten = L.flatten.map f := by
    intro L
    induction L with
    | nil => rfl
    | cons c cs ih =>
        rw [List.map_cons, List.flatten_cons, ih, List.flatten_cons,
          List.map_append]
  rw [h, chunked, chunkedGo_join]

set_option maxRecDepth 4000 in
/-- For a queried name, the two membership signals together amount to
"syntactically invalid or normalized form not registered". -/
theorem registry_signal_eq (synInvalid registered : String → Bool)
    (u : List String) (n : String) (hn : n ∈ u) :
    ((((u.map (apiUsersRecord synInvalid registered)).filter fun r =>
          r.2 == UserQueryResult.missing).map fun r => r.1).contains
        (normalize_username n)
      || (((u.map (apiUsersRecord synInvalid registered)).filter fun r =>
          r.2 == UserQueryResult.invalid).map fun r => r.1).contains n)
    = (synInvalid n || !registered (normalize_username n)) := by
  by_cases hs : synInvalid n = true
  · have hmem : n ∈ ((u.map (apiUsersRecord synInvalid registered)).filter
        fun r => r.2 == UserQueryResult.invalid).map fun r => r.1 := by
      refine List.mem_map.mpr ⟨(n, UserQueryResult.invalid), ?_, rfl⟩
      refine List.mem_filter.mpr ⟨List.mem_map.mpr ⟨n, hn, ?_⟩, by simp⟩
      simp [apiUsersRecord, hs]
    simp [hs, List.elem_eq_mem, hmem]
  · by_cases hr : registered (normalize_username n) = true
    · have hminv : ¬ n ∈ ((u.map (apiUsersRecord synInvalid registered)).filter
          fun r => r.2 == UserQueryResult.invalid).map fun r => r.1 := by
        intro hmem
        obtain ⟨r, hrf, hr1⟩ := List.mem_map.mp hmem
        obtain ⟨hrm, hr2⟩ := List.mem_filter.mp hrf
        obtain ⟨m, hmu, hfm⟩ := List.mem_map.mp hrm
        by_cases hsm : synInvalid m = true
        · have : r = (m, UserQueryResult.invalid) := by
            rw [← hfm]; simp [apiUsersRecord, hsm]
          rw [this] at hr1
          exact hs (hr1 ▸ hsm)
        · by_cases hrm2 : registered (normalize_username m) = true
          · have : r = (normalize_username m, UserQueryResult.known) := by
              rw [← hfm]; simp [apiUsersRecord, hsm, hrm2]
            rw [this] at hr2
            simp at hr2
          · have : r = (normalize_username m, UserQueryResult.missing) := by
              rw [← hfm]; simp [apiUsersRecord, hsm, hrm2]
            rw [this] at hr2
            simp at hr2
      have hmmis : ¬ normalize_username n ∈
          ((u.map (apiUsersRecord synInvalid registered)).filter
            fun r => r.2 == UserQueryResult.missing).map fun r => r.1 := by
        intro hmem
        obtain ⟨r, hrf, hr1⟩ := List.mem_map.mp hmem
        obtain ⟨hrm, hr2⟩ := List.mem_filter.mp hrf
        obtain ⟨m, hmu, hfm⟩ := List.mem_map.mp hrm
        by_cases hsm : synInvalid m = true
        · have : r = (m, UserQueryResult.invalid) := by
            rw [← hfm]; simp [apiUsersRecord, hsm]
          rw [this] at hr2
          simp at hr2
        · by_cases hrm2 : registered (normalize_username m) = true
          · have : r = (normalize_username m, UserQueryResult.known) := by
              rw [← hfm]; simp [apiUsersRecord, hsm, hrm2]
            rw [this] at hr2
            simp at hr2
          · have : r = (normalize_username m, UserQueryResult.missing) := by
              rw [← hfm]; simp [apiUsersRecord, hsm, hrm2]
            rw [this] at hr1
            simp at hr1
            rw [hr1] at hrm2
            exact hrm2 hr
      simp [hs, hr, List.elem_eq_mem, hminv, hmmis]
    · have hmem : normalize_username n ∈
          ((u.map (apiUsersRecord synInvalid registered)).filter
            fun r => r.2 == UserQueryResult.missing).map fun r => r.1 := by
        refine List.mem_map.mpr
          ⟨(normalize_username n, UserQueryResult.missing), ?_, rfl⟩
        refine List.mem_filter.mpr ⟨List.mem_map.mpr ⟨n, hn, ?_⟩, by simp⟩
        simp [apiUsersRecord, hs, hr]
      simp [hr, List.elem_eq_mem, hmem]

/-! ## Theorem: C8 -/

set_option maxRecDepth 4000 in
/-- C8: for a pipe-free input list, `validate_usernames` never sends a name
whose stripped form is an IP address to the registry (the queried names are
exactly those whose stripped form is not an IP, so no IP literal can be
returned as invalid), and it reports a queried name invalid exactly when the
registry marks it syntactically invalid or marks its normalized form as not
registered; `Foo_Bar` normalizes to `Foo Bar` before the not-found check. -/
theorem validate_usernames_spec (isIP synInvalid registered : String → Bool)
    (input_names : List String)
    (hpipe : (input_names.any fun n => n.toList.contains '|') = false) :
    validate_usernames isIP synInvalid registered input_names
      = .ok ((input_names.filter fun n => !isIP (pyStrip n)).filter
          fun n => synInvalid n || !registered (normalize_username n))
    ∧ (∀ n ∈ input_names.filter fun n => !isIP (pyStrip n),
        isIP (pyStrip n) = false)
    ∧ normalize_username "Foo_Bar" = "Foo Bar" := by
  refine ⟨?_, ?_, ?_⟩
  · rw [validate_usernames, if_neg (by rw [hpipe]; exact Bool.false_ne_true)]
    dsimp only
    rw [chunked_map_join]
    congr 1
    exact List.filter_congr fun n hn =>
      registry_signal_eq synInvalid registered _ n hn
  · intro n hn
    have h := List.mem_filter.mp hn
    simpa using h.2
  · rfl

/-- Witness for C8 on the input of the spec example: the IP literal is
dropped before the registry call, the underscored name is normalized and
found registered, and only the malformed name comes back invalid. -/
theorem validate_usernames_spec_witness :
    validate_usernames (fun s => s == "1.2.3.4") (fun s => s == ":::bad")
        (fun s => s == "Foo Bar") ["1.2.3.4", "Foo_Bar", ":::bad"]
      = .ok [":::bad"]
    ∧ normalize_username "Foo_Bar" = "Foo Bar" := by
  have h := validate_usernames_spec (fun s => s == "1.2.3.4")
    (fun s => s == ":::bad") (fun s => s == "Foo Bar")
    ["1.2.3.4", "Foo_Bar", ":::bad"] (by decide)
  exact ⟨h.1.trans (by rfl), h.2.2⟩
